import Mathlib

/-!
Verification of the `spot` gap-buffer text engine (src/spot/lbuf.c, with
src/spot/spot.c as an earlier standalone revision of the same functions).

The gap buffer `struct buffer` keeps a byte array split as
`[0,g) | gap | [c, S-1) | sentinel`.  We embed it shallowly: the bytes left
of the gap (`[0,g)`, i.e. `b->a .. b->g`) are the list `left`, the bytes
right of the gap excluding the sentinel (`[c, S-1)`, i.e. `b->c .. b->e`)
are the list `right`.  Bytes are `Nat` (values 0..255; `'\n'` is 10).
The mark `m` is, as in the C code, an index into the text as if the gap
were absent (see `copy_region`, which copies `s = m - ci` bytes starting
at `b->c` when the cursor is before the mark).  Failing operations
(C functions returning nonzero) are modelled with `Option`: `none` is
failure, and a failing C primitive performs no mutation.  `size_t`
arithmetic on row numbers is modelled with truncated `Nat` subtraction;
under the documented row invariant no C-side wraparound occurs.
Allocation failure and `SIZE_MAX` overflow (the only failure modes of
`grow_gap`, `insert_char` and `paste`) are not represented: the model's
allocation always succeeds.
-/

namespace Spot

/-- ASCII newline byte. -/
def NL : Nat := 10

/-- `isgraph` from ctype.h in the C locale: printable other than space. -/
def isgraph (ch : Nat) : Bool := 33 ≤ ch && ch ≤ 126

/-- The gap buffer (`struct buffer` of lbuf.h).  `left` models the bytes
`[a, g)`, `right` the bytes `[c, e)` (the sentinel at `e` is excluded).
`fn` is the optional filename, `r`/`col` the tracked row and column,
`m`/`mr`/`m_set` the mark data, `mod` the modified flag. -/
structure Buffer where
  fn : Option String
  left : List Nat
  right : List Nat
  r : Nat
  col : Nat
  m : Nat
  mr : Nat
  m_set : Bool
  mod : Bool
deriving DecidableEq, Repr

/-- `struct mem` of lbuf.h: an owned byte sequence plus the row count used
by copy/paste (`u` is `content.length`; the capacity `s` only affects
allocation and is omitted). -/
structure Mem where
  content : List Nat
  rows : Nat
deriving DecidableEq, Repr

/-- `set_col_index` (lbuf.c): distance from the gap back to the nearest
newline or the buffer start. -/
def colOf (left : List Nat) : Nat := (left.reverse.takeWhile (· ≠ NL)).length

/-- The text of the buffer with the gap removed. -/
def Buffer.text (b : Buffer) : List Nat := b.left ++ b.right

/-- `move_left` (lbuf.c): fails if `mult > g - a`; otherwise moves `mult`
bytes from the end of the left part to the front of the right part,
decrementing the row for each newline moved (macro `LCH`), then recomputes
the column. -/
def move_left (b : Buffer) (mult : Nat) : Option Buffer :=
  if mult > b.left.length then none
  else
    let keep := b.left.take (b.left.length - mult)
    let moved := b.left.drop (b.left.length - mult)
    some { b with
      left := keep
      right := moved ++ b.right
      r := b.r - moved.count NL
      col := colOf keep }

/-- `move_right` (lbuf.c): fails if `mult > e - c`; otherwise moves `mult`
bytes from the front of the right part to the end of the left part,
incrementing the row for each newline moved (macro `RCH`), then recomputes
the column. -/
def move_right (b : Buffer) (mult : Nat) : Option Buffer :=
  if mult > b.right.length then none
  else
    let moved := b.right.take mult
    some { b with
      left := b.left ++ moved
      right := b.right.drop mult
      r := b.r + moved.count NL
      col := colOf (b.left ++ moved) }

/-- `start_of_buffer` (lbuf.c): move everything right (`LCH_NO_R`, no row
tracking) and set `r = 1`, `col = 0` directly. -/
def start_of_buffer (b : Buffer) : Buffer :=
  { b with left := [], right := b.left ++ b.right, r := 1, col := 0 }

/-- `end_of_buffer` (lbuf.c): move everything left with `RCH` (row tracked)
and recompute the column. -/
def end_of_buffer (b : Buffer) : Buffer :=
  { b with
    left := b.left ++ b.right
    right := []
    r := b.r + b.right.count NL
    col := colOf (b.left ++ b.right) }

/-- `start_of_line` (lbuf.c): `LCH` while the byte left of the gap is not a
newline; the moved bytes are all non-newlines, so the row is unchanged;
then `col = 0`. -/
def start_of_line (b : Buffer) : Buffer :=
  let movedRev := b.left.reverse.takeWhile (· ≠ NL)
  { b with
    left := (b.left.reverse.dropWhile (· ≠ NL)).reverse
    right := movedRev.reverse ++ b.right
    col := 0 }

/-- `end_of_line` (lbuf.c): `RCH` while the byte at the cursor is not a
newline and not the sentinel; the moved bytes are all non-newlines, so the
row is unchanged; then the column is recomputed. -/
def end_of_line (b : Buffer) : Buffer :=
  let moved := b.right.takeWhile (· ≠ NL)
  { b with
    left := b.left ++ moved
    right := b.right.dropWhile (· ≠ NL)
    col := colOf (b.left ++ moved) }

/-- The backward walk of `up_line` (lbuf.c):
`while (mult && q != b->a) if (*--q == '\n') --mult;`.
The input is the reversed prefix of the text before the walk start; the
result is the final index `q` together with the remaining `mult`. -/
def backLinesRev : List Nat → Nat → Nat × Nat
  | rem, 0 => (rem.length, 0)
  | [], mult => (0, mult)
  | a :: rest, mult => backLinesRev rest (if a = NL then mult - 1 else mult)

/-- `up_line` (lbuf.c): walk back `mult` line boundaries from the start of
the current line, move there, then move further left if the landing line
is longer than the original column. -/
def up_line (b : Buffer) (mult : Nat) : Option Buffer :=
  let origCol := b.col
  let pre := b.left.take (b.left.length - origCol)
  let qm := backLinesRev pre.reverse mult
  if qm.2 ≠ 0 then none
  else
    (move_left b (b.left.length - qm.1)).bind fun b1 =>
      let eol := b1.col
      let q2 := if eol > origCol then qm.1 - (eol - origCol) else qm.1
      move_left b1 (b1.left.length - q2)

/-- The forward walk of `down_line` (lbuf.c):
`while (mult && q != e) if (*q++ == '\n') --mult;`.
Returns the number of bytes walked over and the remaining `mult`. -/
def fwdLines : List Nat → Nat → Nat × Nat
  | _, 0 => (0, 0)
  | [], mult => (0, mult)
  | a :: rest, mult =>
    let p := fwdLines rest (if a = NL then mult - 1 else mult)
    (p.1 + 1, p.2)

/-- The column walk of `down_line` (lbuf.c):
`while (coli-- && q != e && *q != '\n') ++q;`. -/
def fwdCol : List Nat → Nat → Nat
  | _, 0 => 0
  | [], _ => 0
  | a :: rest, c + 1 => if a = NL then 0 else fwdCol rest c + 1

/-- `down_line` (lbuf.c): walk forward over `mult` newlines, then advance
up to the original column on the landing line, then move the cursor. -/
def down_line (b : Buffer) (mult : Nat) : Option Buffer :=
  let coli := b.col
  let sm := fwdLines b.right mult
  if sm.2 ≠ 0 then none
  else
    let extra := fwdCol (b.right.drop sm.1) coli
    move_right b (sm.1 + extra)

/-- `insert_char` (lbuf.c): write `mult` copies of `ch` at the gap start;
`row += mult`, `col = 0` for newline, else `col += mult`; clears the mark
and sets the modified flag.  The only C failure modes are allocation
failure and overflow inside `grow_gap`, which the model does not
represent, so the model always succeeds. -/
def insert_char (b : Buffer) (ch : Nat) (mult : Nat) : Option Buffer :=
  some { b with
    left := b.left ++ List.replicate mult ch
    r := if ch = NL then b.r + mult else b.r
    col := if ch = NL then 0 else b.col + mult
    m_set := false
    mod := true }

/-- `delete_char` (lbuf.c): fails if `mult > e - c`; otherwise expands the
gap rightwards; row and column are untouched; clears the mark and sets the
modified flag. -/
def delete_char (b : Buffer) (mult : Nat) : Option Buffer :=
  if mult > b.right.length then none
  else some { b with right := b.right.drop mult, m_set := false, mod := true }

/-- `backspace_char` (lbuf.c): fails if `mult > g - a`; otherwise expands
the gap leftwards with `BSPC` (row decremented per deleted newline), then
recomputes the column; clears the mark and sets the modified flag. -/
def backspace_char (b : Buffer) (mult : Nat) : Option Buffer :=
  if mult > b.left.length then none
  else
    let keep := b.left.take (b.left.length - mult)
    let removed := b.left.drop (b.left.length - mult)
    some { b with
      left := keep
      r := b.r - removed.count NL
      col := colOf keep
      m_set := false
      mod := true }

/-- `set_mark` (lbuf.c). -/
def set_mark (b : Buffer) : Buffer :=
  { b with m := b.left.length, mr := b.r, m_set := true }

/-- `paste` (lbuf.c): inserts the register content `mult` times at the gap
start, adding `p.rows` to the row each time, then recomputes the column;
clears the mark and sets the modified flag.  C failure modes (overflow,
allocation) are not represented. -/
def paste (b : Buffer) (p : Mem) (mult : Nat) : Option Buffer :=
  some { b with
    left := b.left ++ (List.replicate mult p.content).flatten
    r := b.r + mult * p.rows
    col := colOf (b.left ++ (List.replicate mult p.content).flatten)
    m_set := false
    mod := true }

/-- `copy_region` (lbuf.c): fails when no mark is set; an empty region is
a success no-op (the register and the mark flag are untouched); otherwise
the region is copied into the register together with its row span, the
mark flag is cleared, and with `del` the region is also removed from the
buffer (row/column updated only in the mark-before-cursor branch, where
the deleted bytes were left of the gap). -/
def copy_region (b : Buffer) (p : Mem) (del : Bool) : Option (Buffer × Mem) :=
  let ci := b.left.length
  if b.m_set = false then none
  else if b.m = ci then some (b, p)
  else if b.m < ci then
    let pOut : Mem := { content := b.left.drop b.m, rows := b.r - b.mr }
    let bOut :=
      if del then
        { b with
          left := b.left.take b.m
          r := b.r - pOut.rows
          col := colOf (b.left.take b.m)
          mod := true
          m_set := false }
      else { b with m_set := false }
    some (bOut, pOut)
  else
    let s := b.m - ci
    let pOut : Mem := { content := b.right.take s, rows := b.mr - b.r }
    let bOut :=
      if del then
        { b with right := b.right.drop s, mod := true, m_set := false }
      else { b with m_set := false }
    some (bOut, pOut)

/-- End Of Buffer CHaracter `'~'` (lbuf.h). -/
def EOBCH : Nat := 126

/-- Default gap size `GAP` (lbuf.h): `BUFSIZ`, which is 8192 on the
reference (glibc) platform. -/
def GAP : Nat := 8192

/-- The size computation of `grow_gap` (lbuf.c), on the allocation size
`e - a + 1`, the gap size `c - g` and the requested insert size `req`
(called only when `req > c - g`).  Returns the new allocation size and
the new gap size.  The `SIZE_MAX` overflow checks and `malloc` failure
are not represented. -/
def grow_gap (currentSize gapSize req : Nat) : Nat × Nat :=
  let rg := req + GAP
  let minIncrease := rg - gapSize
  let increase := if currentSize > minIncrease then currentSize else minIncrease
  (currentSize + increase, gapSize + increase)

/-- Phase 2 of `trim_clean` (lbuf.c, second `while` loop): walks backward
(`remRev` is the not-yet-visited text, reversed, so its head is the byte
moved to the cursor by the next `LCH_NO_R`), keeping newlines and graph
bytes, deleting whitespace at end of line and every byte that is not
graph, space, tab or newline.  Returns the kept text right of the walk
plus the at-least-one-deletion flag. -/
def trimP2 : List Nat → Nat → List Nat → Bool → Bool → List Nat × Bool
  | remRev, cur, done, atEol, del =>
    let keep : Bool := (cur == NL) || isgraph cur
        || (!atEol && (cur == 32 || cur == 9))
    let atEol' := if cur == NL then true else if isgraph cur then false else atEol
    let done' := if keep then cur :: done else done
    let del' := del || !keep
    match remRev with
    | [] => (done', del')
    | a :: rest => trimP2 rest a done' atEol' del'

/-- Phase 1 of `trim_clean` (lbuf.c, first `while` loop): deletes the
trailing non-graph bytes, preserving the first newline encountered.  On a
graph byte it falls through to phase 2 with the same byte.  When the walk
reaches the buffer start inside phase 1, the C code breaks into the second
loop, which then inspects the byte at the cursor once more; at that point
that byte is the preserved newline or the end-of-buffer sentinel (both
kept by the second loop), so nothing further changes and the model
returns directly. -/
def trimP1 : List Nat → Nat → List Nat → Bool → Bool → List Nat × Bool
  | remRev, cur, done, nlEnc, del =>
    if isgraph cur then trimP2 remRev cur done false del
    else
      let keep : Bool := !nlEnc && (cur == NL)
      let nlEnc' := nlEnc || keep
      let done' := if keep then cur :: done else done
      let del' := del || !keep
      match remRev with
      | [] => (done', del')
      | a :: rest => trimP1 rest a done' nlEnc' del'

/-- The final forward walk of `trim_clean` (lbuf.c):
`while (b->r != r_backup && b->c != b->e) RCH(b);` starting from the
buffer start with `r = 1`.  Returns the bytes moved left of the gap, the
bytes remaining right of it, and the final row. -/
def forwardToRow (rB : Nat) : List Nat → Nat → List Nat × List Nat × Nat
  | right, r =>
    if r = rB then ([], right, r)
    else
      match right with
      | [] => ([], [], r)
      | a :: rest =>
        let p := forwardToRow rB rest (if a = NL then r + 1 else r)
        (a :: p.1, p.2.1, p.2.2)

/-- `trim_clean` (lbuf.c): saves the row, moves to the end of the buffer,
returns immediately if the buffer is empty, then walks backward deleting
trailing whitespace and non-text bytes (phases 1 and 2), sets `r = 1`,
`col = 0`, clears the mark and sets the modified flag if anything was
deleted, and finally moves forward to the original row where possible. -/
def trim_clean (b : Buffer) : Buffer :=
  let rB := b.r
  let b1 := end_of_buffer b
  match b1.left.reverse with
  | [] => b1
  | cur :: restRev =>
    let td := trimP1 restRev cur [] false false
    let fw := forwardToRow rB td.1 1
    { b1 with
      left := fw.1
      right := fw.2.1
      r := fw.2.2
      col := 0
      m_set := if td.2 then false else b1.m_set
      mod := if td.2 then true else b1.mod }

/-- `memchr`: index of the first occurrence of byte `c` in `l`. -/
def memchr : List Nat → Nat → Option Nat
  | [], _ => none
  | a :: rest, c => if a = c then some 0 else (memchr rest c).map (· + 1)

/-- The fill loops of `set_bad` (lbuf.c): every byte starts at
`pat.length + 1`; then for `i` in pattern order the entry of `pat[i]` is
overwritten with `pat.length - i` (so the last occurrence wins). -/
def badFill (len ch : Nat) : List Nat → Nat → Nat → Nat
  | [], _, acc => acc
  | a :: rest, i, acc => badFill len ch rest (i + 1) (if a = ch then len - i else acc)

/-- The bad character table of `set_bad` (lbuf.c) as a function from byte
values to shifts. -/
def badTable (pat : List Nat) (ch : Nat) : Nat :=
  badFill pat.length ch pat 0 (pat.length + 1)

/-- The pattern `pat` occurs in `big` at position `i`. -/
def matchAt (big pat : List Nat) (i : Nat) : Prop :=
  i + pat.length ≤ big.length ∧ (big.drop i).take pat.length = pat

instance {big pat : List Nat} {i : Nat} : Decidable (matchAt big pat i) := by
  unfold matchAt; exact inferInstance

/-- The Quick Search scan loop of `memmatch` (lbuf.c): starting at `q`,
compare the pattern against `big[q .. q+m)` (the C do/while byte compare);
on mismatch advance `q` by the bad-table entry of the byte just past the
window; stop when `q + m` would pass the end.  The C loop would not
terminate if the table contained a zero shift, so the model uses fuel
(`big.length + 2` suffices for a table built by `set_bad`, whose entries
are at least 1).  At `q + m = big.length` the C code reads the byte one
past the scanned range for the shift (the region end or the sentinel);
because every shift of a `set_bad` table is positive, the loop exits with
no match regardless of that byte's value, which the model replaces by 0. -/
def qsLoop (big pat : List Nat) (bad : Nat → Nat) : Nat → Nat → Option Nat
  | 0, _ => none
  | fuel + 1, q =>
    if q + pat.length ≤ big.length then
      if (big.drop q).take pat.length = pat then some q
      else qsLoop big pat bad fuel (q + bad (big.getD (q + pat.length) 0))
    else none

/-- `memmatch` (lbuf.c): no match for an empty text, an empty pattern or a
pattern longer than the text; `memchr` for single-byte patterns; Quick
Search otherwise. -/
def memmatch (big pat : List Nat) (bad : Nat → Nat) : Option Nat :=
  if big.length = 0 ∨ pat.length = 0 ∨ pat.length > big.length then none
  else if pat.length = 1 then memchr big (pat.getD 0 0)
  else qsLoop big pat bad (big.length + 2) 0

theorem memmatch_some_pos {big pat : List Nat} {bad : Nat → Nat} {i : Nat}
    (h : memmatch big pat bad = some i) : 0 < big.length := by
  by_contra hbig
  unfold memmatch at h
  rw [if_pos (Or.inl (by omega))] at h
  exact Option.noConfusion h

/-- `search` (lbuf.c): forward search excluding the byte at the cursor and
the sentinel; fails when there is no buffer text after the cursor; on a
match at `q` the cursor is moved right by `q - c` positions. -/
def search (b : Buffer) (se : Mem) (bad : Nat → Nat) : Option Buffer :=
  if b.right.length ≤ 1 then none
  else
    match memmatch b.right.tail se.content bad with
    | none => none
    | some i => move_right b (i + 1)

/-- The match-counting loop of `replace` (lbuf.c) for the
mark-before-cursor case: `q = a + m; while ((q = memmatch(q, g - q, find,
fts, bad))) { ++count; ++q; }` — each successive search starts one byte
past the previous match start, so overlapping occurrences are counted.
Each iteration drops at least one byte of `big`, so fuel `big.length + 1`
(supplied by `countOcc`) is never exhausted before `memmatch` fails. -/
def countOccGo (pat : List Nat) (bad : Nat → Nat) : Nat → List Nat → Nat
  | 0, _ => 0
  | fuel + 1, big =>
    match memmatch big pat bad with
    | none => 0
    | some i => countOccGo pat bad fuel (big.drop (i + 1)) + 1

/-- Match count for the mark-before-cursor region of `replace`. -/
def countOcc (big pat : List Nat) (bad : Nat → Nat) : Nat :=
  countOccGo pat bad (big.length + 1) big

/-- The match-counting loop of `replace` (lbuf.c) for the
cursor-before-mark case: `q = c; while ((q = memmatch(q, m - ci, find,
fts, bad))) { ++count; ++q; }`.  The length passed to `memmatch` is the
constant region size `m - ci`, so after the first match the scanned
window slides past the region end: the count may include matches beyond
the region.  The scanned text is the byte sequence from the cursor to the
sentinel inclusive; windows extending past the sentinel read unowned
memory in C (undefined) and are truncated here.  Each iteration drops at
least one byte, so fuel `text.length + 1` is never exhausted before
`memmatch` fails. -/
def countSlideGo (regS : Nat) (pat : List Nat) (bad : Nat → Nat) :
    Nat → List Nat → Nat
  | 0, _ => 0
  | fuel + 1, text =>
    match memmatch (text.take regS) pat bad with
    | none => 0
    | some i => countSlideGo regS pat bad fuel (text.drop (i + 1)) + 1

/-- Match count for the cursor-before-mark region of `replace`. -/
def countSlide (text : List Nat) (regS : Nat) (pat : List Nat)
    (bad : Nat → Nat) : Nat :=
  countSlideGo regS pat bad (text.length + 1) text

/-- The loop state of `replace` (lbuf.c): buffer text around the gap, the
tracked row, and the remaining region size `m_pointer - c`. -/
structure RepSt where
  left : List Nat
  right : List Nat
  r : Nat
  rs : Nat
deriving DecidableEq, Repr

/-- The find-and-replace loop of `replace` (lbuf.c), run `count` times:
find the next match between the cursor and the region-end pointer, walk
the cursor to the match start with `RCH` (row tracked), `delete_char` the
find text (no row change; the C return value is ignored, so a failing
delete leaves the text in place), and splice in the replace text left of
the gap without touching the row.  When `memmatch` finds nothing the C
code runs `RCH` unboundedly (`while (b->c != q)` with `q == NULL`),
which is undefined; the model returns `none`. -/
def repLoop (find rep : List Nat) (bad : Nat → Nat) : Nat → RepSt → Option RepSt
  | 0, st => some st
  | i + 1, st =>
    match memmatch (st.right.take st.rs) find bad with
    | none => none
    | some p =>
      let moved := st.right.take p
      let afterWalk := st.right.drop p
      let delFail := find.length > afterWalk.length
      let afterDel := if delFail then afterWalk else afterWalk.drop find.length
      repLoop find rep bad i
        { left := st.left ++ moved ++ rep
          right := afterDel
          r := st.r + moved.count NL
          rs := if delFail then st.rs - p else st.rs - p - find.length }

/-- `replace` (lbuf.c): find-and-replace in the region.  Fails when no
mark is set; an empty region is a success no-op; the request
`delim ++ find ++ delim ++ rep` is split on the first repetition of its
first byte and fails when shorter than 3 bytes, without a second
delimiter, or with an empty find text.  Matches are counted (see
`countOcc`/`countSlide`), the gap is pre-grown (size bookkeeping only; no
text change, and its failure modes are not modelled), the cursor is moved
back to the mark when the mark comes first (`LCH_NO_R`: rows swapped with
the mark row, the mark index becomes the old cursor index), the loop runs
`count` times, and finally `r += count * (newlines in rep)` and the
column is recomputed.  `delete_char` inside the loop clears the mark flag
and sets the modified flag whenever at least one iteration runs. -/
def replace (b : Buffer) (rp : List Nat) : Option Buffer :=
  let ci := b.left.length
  if b.m_set = false then none
  else if b.m = ci then some b
  else if rp.length < 3 then none
  else
    match rp with
    | [] => none
    | delim :: rest =>
      match memchr rest delim with
      | none => none
      | some dIdx =>
        if dIdx = 0 then none
        else
          let findT := rest.take dIdx
          let rts := rp.length - dIdx - 2
          let repT := (rest.drop (dIdx + 1)).take rts
          let nlCount := repT.count NL
          let bad := badTable findT
          let cnt :=
            if b.m < ci then countOcc (b.left.drop b.m) findT bad
            else countSlide (b.right ++ [EOBCH]) (b.m - ci) findT bad
          let b1 :=
            if b.m < ci then
              { b with
                left := b.left.take b.m
                right := b.left.drop b.m ++ b.right
                m := ci
                r := b.mr
                mr := b.r }
            else b
          let st0 : RepSt :=
            { left := b1.left, right := b1.right, r := b1.r
              rs := if b.m < ci then ci - b.m else b.m - ci }
          match repLoop findT repT bad cnt st0 with
          | none => none
          | some st =>
            some { b1 with
              left := st.left
              right := st.right
              r := st.r + cnt * nlCount
              col := colOf st.left
              m_set := if cnt = 0 then b1.m_set else false
              mod := if cnt = 0 then b1.mod else true }

/-- What a successful `write_buffer` did to the file system: whether the
existing file was renamed to the `~` backup, and the bytes written (the
sentinel is never written). -/
structure WriteEffect where
  backedUp : Bool
  wrote : Option (List Nat)
deriving DecidableEq, Repr

/-- `write_buffer` (lbuf.c): fails on a null path; saving an unmodified
buffer to its own filename is a success no-op before any file access;
otherwise the target (when it exists as a regular file and a backup was
requested) is renamed to `path ++ "~"`, the bytes `[a,g)` then `[c,e)`
are written, and the modified flag is cleared exactly when the path
equals the buffer's filename.  `fnExists` stands for the `stat` check;
I/O failure paths are not represented. -/
def write_buffer (b : Buffer) (fn : Option String) (backupReq : Bool)
    (fnExists : Bool) : Option (Buffer × WriteEffect) :=
  match fn with
  | none => none
  | some f =>
    if b.fn = some f ∧ b.mod = false then some (b, ⟨false, none⟩)
    else
      let didBackup := backupReq && fnExists
      let b2 := if b.fn = some f then { b with mod := false } else b
      some (b2, ⟨didBackup, some (b.left ++ b.right)⟩)

/-! ### Invariants (spec.md section 3 and 8) -/

/-- The row/column invariant: `row = count('\n', [0,g)) + 1` and `col` is
the distance from the gap back to the nearest newline or the buffer
start. -/
def rcOk (b : Buffer) : Prop :=
  b.r = b.left.count NL + 1 ∧ b.col = colOf b.left

instance {b : Buffer} : Decidable (rcOk b) := by
  unfold rcOk; exact inferInstance

/-- Well-formedness of the mark data: when the mark is set, its index is
inside the text and the recorded mark row matches the mark position. -/
def markOk (b : Buffer) : Prop :=
  b.m_set = true → b.m ≤ b.text.length ∧ b.mr = (b.text.take b.m).count NL + 1

instance {b : Buffer} : Decidable (markOk b) := by
  unfold markOk; exact inferInstance

/-- Well-formedness of a paste register: the recorded row span equals the
newline count of the content (as produced by `copy_region`). -/
def memOk (p : Mem) : Prop := p.rows = p.content.count NL

instance {p : Mem} : Decidable (memOk p) := by
  unfold memOk; exact inferInstance

/-! ### Column helper lemmas -/

theorem colOf_nil : colOf [] = 0 := rfl

theorem colOf_append_of_not_mem {s : List Nat} (l : List Nat) (h : NL ∉ s) :
    colOf (l ++ s) = colOf l + s.length := by
  unfold colOf
  rw [List.reverse_append, List.takeWhile_append_of_pos, List.length_append,
    List.length_reverse, Nat.add_comm]
  intro a ha
  simp only [List.mem_reverse] at ha
  simp only [decide_eq_true_eq, ne_eq]
  exact fun hne => h (hne ▸ ha)

theorem colOf_append_nl (l : List Nat) : colOf (l ++ [NL]) = 0 := by
  unfold colOf
  rw [List.reverse_append]
  rfl

theorem colOf_le_length (l : List Nat) : colOf l ≤ l.length := by
  unfold colOf
  calc (l.reverse.takeWhile (· ≠ NL)).length ≤ l.reverse.length :=
        (List.takeWhile_sublist _).length_le
    _ = l.length := List.length_reverse l

/-! ### Claim theorems: gap growth -/

/-- Claim C4 as stated is false: with allocation size 4, gap size 2 and a
requested insert of 3 bytes (which does not fit, `3 > 2`), `grow_gap`
picks the new allocation size `4 + max 4 (3 + GAP - 2)`, not
`4 + max 4 (3 + GAP)`. -/
theorem C4_counterexample :
    3 > 2 ∧ (grow_gap 4 2 3).1 ≠ 4 + max 4 (3 + GAP) := by decide

/-- Claim C4, amended: when an insert of `req` bytes does not fit in the
gap, the new allocation size is `old + max (old, req + GAP - gap)`, the
gap grows by the same increase, and the resulting gap fits the planned
insert plus the default `GAP`. -/
theorem C4_grow_gap_size (cs gs req : Nat) (h : req > gs) :
    (grow_gap cs gs req).1 = cs + max cs (req + GAP - gs) ∧
    (grow_gap cs gs req).2 = gs + max cs (req + GAP - gs) ∧
    req + GAP ≤ (grow_gap cs gs req).2 := by
  unfold grow_gap
  dsimp only
  split <;> refine ⟨by omega, by omega, by omega⟩

/-- Witness for C4_grow_gap_size at allocation size 4, gap 2, request 3. -/
theorem C4_grow_gap_size_witness :
    (grow_gap 4 2 3).1 = 4 + max 4 (3 + GAP - 2) ∧
    (grow_gap 4 2 3).2 = 2 + max 4 (3 + GAP - 2) ∧
    3 + GAP ≤ (grow_gap 4 2 3).2 :=
  C4_grow_gap_size 4 2 3 (by decide)

/-! ### Claim theorems: write_buffer -/

/-- Claim C5: a successful `write_buffer` whose target path equals the
buffer's filename leaves the modified flag cleared. -/
theorem C5_write_clears_mod (b : Buffer) (f : String) (req ex : Bool)
    (b' : Buffer) (eff : WriteEffect) (hfn : b.fn = some f)
    (h : write_buffer b (some f) req ex = some (b', eff)) :
    b'.mod = false := by
  unfold write_buffer at h
  dsimp only at h
  by_cases hc : b.fn = some f ∧ b.mod = false
  · rw [if_pos hc] at h
    simp only [Option.some.injEq, Prod.mk.injEq] at h
    rw [← h.1]
    exact hc.2
  · rw [if_neg hc, if_pos hfn] at h
    simp only [Option.some.injEq, Prod.mk.injEq] at h
    rw [← h.1]

/-- Witness for C5_write_clears_mod on a modified one-byte buffer saved to
its own filename. -/
theorem C5_write_clears_mod_witness :
    ∃ b' eff, write_buffer ⟨some "f", [97], [], 1, 1, 0, 1, false, true⟩
      (some "f") true true = some (b', eff) ∧ b'.mod = false := by
  have h : write_buffer ⟨some "f", [97], [], 1, 1, 0, 1, false, true⟩
      (some "f") true true =
      some (⟨some "f", [97], [], 1, 1, 0, 1, false, false⟩,
        ⟨true, some [97]⟩) := by decide
  exact ⟨_, _, h, C5_write_clears_mod ⟨some "f", [97], [], 1, 1, 0, 1, false,
    true⟩ "f" true true _ _ (by decide) h⟩

/-- Claim C9: saving an unmodified buffer to its own filename returns
success immediately: the buffer is untouched, nothing is written and no
backup rename happens even when a backup was requested and the target
exists. -/
theorem C9_noop_save (b : Buffer) (f : String) (req ex : Bool)
    (hfn : b.fn = some f) (hmod : b.mod = false) :
    write_buffer b (some f) req ex = some (b, ⟨false, none⟩) := by
  unfold write_buffer
  dsimp only
  rw [if_pos ⟨hfn, hmod⟩]

/-- Witness for C9_noop_save with a backup requested on an existing
target. -/
theorem C9_noop_save_witness :
    write_buffer ⟨some "f", [97], [], 1, 1, 0, 1, false, false⟩
      (some "f") true true =
      some (⟨some "f", [97], [], 1, 1, 0, 1, false, false⟩, ⟨false, none⟩) :=
  C9_noop_save _ "f" true true rfl rfl

/-! ### Claim theorems: movement bounds -/

/-- Claim C7: `move_left` by exactly the number of bytes left of the gap
succeeds and puts the cursor at the start of the buffer; `move_left` by
one more fails (the C code checks the bound before any mutation, so the
buffer is untouched). -/
theorem C7_move_left_bounds (b : Buffer) :
    (∃ b', move_left b b.left.length = some b' ∧ b'.left = [] ∧
      b'.right = b.left ++ b.right) ∧
    move_left b (b.left.length + 1) = none := by
  constructor
  · unfold move_left
    rw [if_neg (by omega)]
    exact ⟨_, rfl, by simp, by simp⟩
  · unfold move_left
    rw [if_pos (by omega)]

/-! ### Claim theorems: insert_char with multiplier zero -/

/-- Claim C8 as stated is false: on a buffer with column 2, a set mark and
a clear modified flag, `insert_char` of a newline with multiplier 0
succeeds but zeroes the column, clears the mark flag and sets the
modified flag. -/
theorem C8_counterexample :
    insert_char ⟨none, [97, 98], [], 1, 2, 0, 1, true, false⟩ NL 0 =
      some ⟨none, [97, 98], [], 1, 0, 0, 1, false, true⟩ := by decide

/-- Claim C8, amended: `insert_char (b, ch, 0)` succeeds and leaves the
text, the row, the mark data and the filename unchanged, but it always
clears the mark flag and sets the modified flag, and it zeroes the column
when `ch` is a newline (otherwise the column is unchanged). -/
theorem C8_insert_zero (b : Buffer) (ch : Nat) (b' : Buffer)
    (h : insert_char b ch 0 = some b') :
    b'.left = b.left ∧ b'.right = b.right ∧ b'.r = b.r ∧
    b'.col = (if ch = NL then 0 else b.col) ∧
    b'.m_set = false ∧ b'.mod = true ∧
    b'.m = b.m ∧ b'.mr = b.mr ∧ b'.fn = b.fn := by
  unfold insert_char at h
  injection h with hb
  subst hb
  refine ⟨by simp, rfl, ?_, ?_, rfl, rfl, rfl, rfl, rfl⟩
  · dsimp only; split <;> simp
  · dsimp only; split <;> rfl

/-- Witness for C8_insert_zero at a concrete buffer and a newline. -/
theorem C8_insert_zero_witness :
    ∃ b', insert_char ⟨none, [97], [], 1, 1, 0, 1, true, false⟩ NL 0 = some b' ∧
      (b'.left = [97] ∧ b'.right = [] ∧ b'.r = 1 ∧
        b'.col = (if NL = NL then 0 else 1) ∧
        b'.m_set = false ∧ b'.mod = true ∧ b'.m = 0 ∧ b'.mr = 1 ∧
        b'.fn = none) := by
  refine ⟨_, rfl, ?_⟩
  exact C8_insert_zero ⟨none, [97], [], 1, 1, 0, 1, true, false⟩ NL _ rfl

/-! ### Claim theorems: copy_region -/

/-- Claim C10: with the mark set at the cursor (an empty region),
`copy_region` succeeds leaving the buffer (including the set mark flag)
and the paste register untouched; and every successful copy of a
non-empty region leaves the mark flag cleared. -/
theorem C10_copy_region (b : Buffer) (p : Mem) (del : Bool) :
    (b.m_set = true → b.m = b.left.length → copy_region b p del = some (b, p)) ∧
    (∀ b' p', b.m ≠ b.left.length → copy_region b p del = some (b', p') →
      b'.m_set = false) := by
  constructor
  · intro hset hm
    unfold copy_region
    rw [if_neg (by simp [hset]), if_pos hm]
  · intro b' p' hm h
    unfold copy_region at h
    by_cases hset : b.m_set = false
    · rw [if_pos hset] at h
      exact Option.noConfusion h
    · rw [if_neg hset, if_neg hm] at h
      by_cases hlt : b.m < b.left.length
      · rw [if_pos hlt] at h
        dsimp only at h
        simp only [Option.some.injEq, Prod.mk.injEq] at h
        rw [← h.1]
        split <;> rfl
      · rw [if_neg hlt] at h
        dsimp only at h
        simp only [Option.some.injEq, Prod.mk.injEq] at h
        rw [← h.1]
        split <;> rfl

/-- Witness for C10_copy_region: empty region at a set mark, and a
non-empty region copy clearing the mark flag. -/
theorem C10_copy_region_witness :
    (copy_region ⟨none, [97], [], 1, 1, 1, 1, true, false⟩ ⟨[120], 0⟩ false =
      some (⟨none, [97], [], 1, 1, 1, 1, true, false⟩, ⟨[120], 0⟩)) ∧
    (∀ b' p',
      copy_region ⟨none, [97], [], 1, 1, 0, 1, true, false⟩ ⟨[], 0⟩ false =
        some (b', p') → b'.m_set = false) :=
  ⟨(C10_copy_region _ _ false).1 rfl rfl,
    fun b' p' => (C10_copy_region _ ⟨[], 0⟩ false).2 b' p' (by decide)⟩

/-! ### Claim theorems: insert/backspace round trip -/

/-- Claim C6: on a buffer whose column satisfies the column invariant,
`insert_char (ch, n)` followed by `backspace_char n` restores the text,
the row and the column (the mark flag and the modified flag are not
restored). -/
theorem C6_insert_backspace (b : Buffer) (ch n : Nat)
    (hcol : b.col = colOf b.left) (b1 b2 : Buffer)
    (h1 : insert_char b ch n = some b1)
    (h2 : backspace_char b1 n = some b2) :
    b2.left = b.left ∧ b2.right = b.right ∧ b2.r = b.r ∧ b2.col = b.col := by
  unfold insert_char at h1
  injection h1 with hb1
  subst hb1
  unfold backspace_char at h2
  rw [if_neg (by simp)] at h2
  injection h2 with hb2
  subst hb2
  have hlen : (b.left ++ List.replicate n ch).length - n = b.left.length := by
    simp
  have htake : (b.left ++ List.replicate n ch).take b.left.length = b.left :=
    List.take_left ..
  have hdrop : (b.left ++ List.replicate n ch).drop b.left.length =
      List.replicate n ch := List.drop_left ..
  refine ⟨by rw [hlen, htake], rfl, ?_, by rw [hlen, htake, hcol]⟩
  dsimp only
  rw [hlen, hdrop, List.count_replicate]
  by_cases hch : ch = NL
  · rw [if_pos hch, if_pos (by simp [hch])]
    omega
  · rw [if_neg hch, if_neg (by simp [hch])]
    omega

/-- Witness for C6_insert_backspace: three newlines inserted after "hi"
and backspaced again. -/
theorem C6_insert_backspace_witness :
    ∃ b1 b2,
      insert_char ⟨none, [104, 105], [], 1, 2, 0, 1, false, false⟩ NL 3 =
        some b1 ∧
      backspace_char b1 3 = some b2 ∧
      (b2.left = [104, 105] ∧ b2.right = [] ∧ b2.r = 1 ∧ b2.col = 2) := by
  have h1 : insert_char ⟨none, [104, 105], [], 1, 2, 0, 1, false, false⟩ NL 3 =
      some ⟨none, [104, 105, 10, 10, 10], [], 4, 0, 0, 1, false, true⟩ := by
    decide
  have h2 : backspace_char ⟨none, [104, 105, 10, 10, 10], [], 4, 0, 0, 1,
      false, true⟩ 3 =
      some ⟨none, [104, 105], [], 1, 2, 0, 1, false, true⟩ := by decide
  exact ⟨_, _, h1, h2,
    C6_insert_backspace ⟨none, [104, 105], [], 1, 2, 0, 1, false, false⟩
      NL 3 (by decide) _ _ h1 h2⟩

/-! ### Row/column invariant preservation, primitive by primitive -/

theorem count_take_add_drop (l : List Nat) (k : Nat) :
    (l.take k).count NL + (l.drop k).count NL = l.count NL := by
  rw [← List.count_append, List.take_append_drop]

theorem rc_move_left {b : Buffer} {n : Nat} {b' : Buffer} (hb : rcOk b)
    (h : move_left b n = some b') : rcOk b' := by
  unfold move_left at h
  split at h
  · exact Option.noConfusion h
  · injection h with hb'
    subst hb'
    obtain ⟨hr, _⟩ := hb
    have := count_take_add_drop b.left (b.left.length - n)
    exact ⟨by dsimp only; omega, rfl⟩

theorem rc_move_right {b : Buffer} {n : Nat} {b' : Buffer} (hb : rcOk b)
    (h : move_right b n = some b') : rcOk b' := by
  unfold move_right at h
  split at h
  · exact Option.noConfusion h
  · injection h with hb'
    subst hb'
    obtain ⟨hr, _⟩ := hb
    refine ⟨?_, rfl⟩
    dsimp only
    rw [List.count_append]
    omega

theorem rc_start_of_buffer (b : Buffer) : rcOk (start_of_buffer b) :=
  ⟨rfl, rfl⟩

theorem rc_end_of_buffer {b : Buffer} (hb : rcOk b) :
    rcOk (end_of_buffer b) := by
  obtain ⟨hr, _⟩ := hb
  refine ⟨?_, rfl⟩
  dsimp only [end_of_buffer]
  rw [List.count_append]
  omega

theorem takeWhile_dropWhile_nil {α : Type} (p : α → Bool) (l : List α) :
    (l.dropWhile p).takeWhile p = [] := by
  induction l with
  | nil => rfl
  | cons a rest ih =>
      by_cases hp : p a
      · rw [List.dropWhile_cons_of_pos hp]
        exact ih
      · rw [List.dropWhile_cons_of_neg hp]
        exact List.takeWhile_cons_of_neg hp

theorem count_takeWhile_ne_nl (l : List Nat) :
    (l.takeWhile (· ≠ NL)).count NL = 0 := by
  rw [List.count_eq_zero]
  intro hmem
  have := List.mem_takeWhile_imp hmem
  simp at this

theorem rc_start_of_line {b : Buffer} (hb : rcOk b) :
    rcOk (start_of_line b) := by
  obtain ⟨hr, _⟩ := hb
  constructor
  · dsimp only [start_of_line]
    rw [List.count_reverse]
    have hsplit := List.takeWhile_append_dropWhile (p := (· ≠ NL))
      (l := b.left.reverse)
    have hcount : b.left.count NL = (b.left.reverse.takeWhile (· ≠ NL)).count NL
        + (b.left.reverse.dropWhile (· ≠ NL)).count NL := by
      rw [← List.count_append, hsplit, List.count_reverse]
    rw [count_takeWhile_ne_nl] at hcount
    omega
  · dsimp only [start_of_line, colOf]
    rw [List.reverse_reverse, takeWhile_dropWhile_nil]
    rfl

theorem rc_end_of_line {b : Buffer} (hb : rcOk b) : rcOk (end_of_line b) := by
  obtain ⟨hr, _⟩ := hb
  refine ⟨?_, rfl⟩
  dsimp only [end_of_line]
  rw [List.count_append, count_takeWhile_ne_nl]
  omega

theorem rc_up_line {b : Buffer} {n : Nat} {b' : Buffer} (hb : rcOk b)
    (h : up_line b n = some b') : rcOk b' := by
  unfold up_line at h
  dsimp only at h
  split at h
  · exact Option.noConfusion h
  · obtain ⟨b1, h1, h2⟩ := Option.bind_eq_some.mp h
    exact rc_move_left (rc_move_left hb h1) h2

theorem rc_down_line {b : Buffer} {n : Nat} {b' : Buffer} (hb : rcOk b)
    (h : down_line b n = some b') : rcOk b' := by
  unfold down_line at h
  dsimp only at h
  split at h
  · exact Option.noConfusion h
  · exact rc_move_right hb h

theorem rc_insert_char {b : Buffer} {ch n : Nat} {b' : Buffer} (hb : rcOk b)
    (hn : 1 ≤ n) (h : insert_char b ch n = some b') : rcOk b' := by
  unfold insert_char at h
  injection h with hb'
  subst hb'
  obtain ⟨hr, hc⟩ := hb
  by_cases hch : ch = NL
  · subst hch
    constructor
    · dsimp only
      rw [if_pos rfl, List.count_append, List.count_replicate_self]
      omega
    · dsimp only
      rw [if_pos rfl]
      obtain ⟨m, rfl⟩ := Nat.exists_eq_add_of_le hn
      rw [Nat.add_comm 1 m, List.replicate_succ', ← List.append_assoc,
        colOf_append_nl]
  · constructor
    · dsimp only
      rw [if_neg hch, List.count_append, List.count_replicate,
        if_neg (by simp [hch])]
      omega
    · dsimp only
      rw [if_neg hch, colOf_append_of_not_mem (s := List.replicate n ch)
        b.left (fun hmem => hch (List.eq_of_mem_replicate hmem).symm),
        List.length_replicate, hc]

theorem rc_delete_char {b : Buffer} {n : Nat} {b' : Buffer} (hb : rcOk b)
    (h : delete_char b n = some b') : rcOk b' := by
  unfold delete_char at h
  split at h
  · exact Option.noConfusion h
  · injection h with hb'
    subst hb'
    exact hb

theorem rc_backspace_char {b : Buffer} {n : Nat} {b' : Buffer} (hb : rcOk b)
    (h : backspace_char b n = some b') : rcOk b' := by
  unfold backspace_char at h
  split at h
  · exact Option.noConfusion h
  · injection h with hb'
    subst hb'
    obtain ⟨hr, _⟩ := hb
    have := count_take_add_drop b.left (b.left.length - n)
    exact ⟨by dsimp only; omega, rfl⟩

theorem count_flatten_replicate (m : Nat) (l : List Nat) :
    ((List.replicate m l).flatten).count NL = m * l.count NL := by
  induction m with
  | zero => simp
  | succ k ih =>
      rw [List.replicate_succ, List.flatten_cons, List.count_append, ih]
      ring

theorem rc_paste {b : Buffer} {p : Mem} {n : Nat} {b' : Buffer} (hb : rcOk b)
    (hp : memOk p) (h : paste b p n = some b') : rcOk b' := by
  unfold paste at h
  injection h with hb'
  subst hb'
  obtain ⟨hr, _⟩ := hb
  refine ⟨?_, rfl⟩
  dsimp only
  rw [List.count_append, count_flatten_replicate, hp]
  omega

theorem take_text_of_le {b : Buffer} (hm : b.m ≤ b.left.length) :
    b.text.take b.m = b.left.take b.m := by
  unfold Buffer.text
  rw [List.take_append_of_le_length hm]

theorem rc_copy_region {b : Buffer} {p : Mem} {del : Bool} {b' : Buffer}
    {p' : Mem} (hb : rcOk b) (hm : markOk b)
    (h : copy_region b p del = some (b', p')) : rcOk b' := by
  unfold copy_region at h
  dsimp only at h
  by_cases hset : b.m_set = false
  · rw [if_pos hset] at h
    exact Option.noConfusion h
  · rw [if_neg hset] at h
    by_cases heq : b.m = b.left.length
    · rw [if_pos heq] at h
      simp only [Option.some.injEq, Prod.mk.injEq] at h
      rw [← h.1]
      exact hb
    · rw [if_neg heq] at h
      obtain ⟨hr, hc⟩ := hb
      by_cases hlt : b.m < b.left.length
      · rw [if_pos hlt] at h
        simp only [Option.some.injEq, Prod.mk.injEq] at h
        rw [← h.1]
        split
        · have hmr := hm (by revert hset; cases b.m_set <;> simp)
          rw [take_text_of_le (Nat.le_of_lt hlt)] at hmr
          have hct := count_take_add_drop b.left b.m
          refine ⟨?_, rfl⟩
          dsimp only
          omega
        · exact ⟨hr, hc⟩
      · rw [if_neg hlt] at h
        simp only [Option.some.injEq, Prod.mk.injEq] at h
        rw [← h.1]
        split
        · exact ⟨hr, hc⟩
        · exact ⟨hr, hc⟩

/-! ### trim_clean preserves the row/column invariant -/

theorem colOf_eq_zero_of_getLast {l : List Nat} (h : l.getLast? = some NL) :
    colOf l = 0 := by
  unfold colOf
  rw [← List.head?_reverse] at h
  rcases hrev : l.reverse with _ | ⟨a, tl⟩
  · rw [hrev] at h
    exact absurd h (by simp)
  · rw [hrev] at h
    injection h with ha
    rw [List.takeWhile_cons_of_neg (by simp [ha])]
    rfl

theorem getLast?_append_right {l₁ l₂ : List Nat} (h : l₂.getLast? = some NL) :
    (l₁ ++ l₂).getLast? = some NL := by
  rw [List.getLast?_append, h]
  rfl

theorem trimP2_suffix (remRev : List Nat) :
    ∀ cur done atEol del, done <:+ (trimP2 remRev cur done atEol del).1 := by
  induction remRev with
  | nil =>
      intro cur done atEol del
      unfold trimP2
      dsimp only
      split
      · exact ⟨[cur], rfl⟩
      · exact List.suffix_rfl
  | cons a rest ih =>
      intro cur done atEol del
      unfold trimP2
      dsimp only
      split
      · exact List.IsSuffix.trans ⟨[cur], rfl⟩ (ih ..)
      · exact ih ..

theorem trimP1_suffix (remRev : List Nat) :
    ∀ cur done nlEnc del, done <:+ (trimP1 remRev cur done nlEnc del).1 := by
  induction remRev with
  | nil =>
      intro cur done nlEnc del
      unfold trimP1
      split
      · exact trimP2_suffix ..
      · dsimp only
        split
        · exact ⟨[cur], rfl⟩
        · exact List.suffix_rfl
  | cons a rest ih =>
      intro cur done nlEnc del
      unfold trimP1
      split
      · exact trimP2_suffix ..
      · dsimp only
        split
        · exact List.IsSuffix.trans ⟨[cur], rfl⟩ (ih ..)
        · exact ih ..

theorem trimP2_count (remRev : List Nat) :
    ∀ cur done atEol del,
      (trimP2 remRev cur done atEol del).1.count NL =
        remRev.count NL + [cur].count NL + done.count NL := by
  induction remRev with
  | nil =>
      intro cur done atEol del
      unfold trimP2
      dsimp only
      split
      · simp only [List.count_cons, List.count_nil]
        by_cases hc : cur = NL <;> simp [hc] <;> try omega
      · next hk =>
          have hcur : ¬cur = NL := fun hc => hk (by simp [hc])
          simp only [List.count_cons, List.count_nil]
          simp [hcur]
  | cons a rest ih =>
      intro cur done atEol del
      unfold trimP2
      dsimp only
      split
      · rw [ih]
        simp only [List.count_cons, List.count_nil]
        by_cases hc : cur = NL <;> simp [hc] <;> try omega
      · next hk =>
          rw [ih]
          have hcur : ¬cur = NL := fun hc => hk (by simp [hc])
          simp only [List.count_cons, List.count_nil]
          simp [hcur]
          try omega

theorem trimP1_count (remRev : List Nat) :
    ∀ cur done nlEnc del,
      (nlEnc = false → done = []) →
      (nlEnc = true → done.getLast? = some NL) →
      (trimP1 remRev cur done nlEnc del).1.count NL =
          remRev.count NL + [cur].count NL + done.count NL ∨
        (trimP1 remRev cur done nlEnc del).1.getLast? = some NL := by
  induction remRev with
  | nil =>
      intro cur done nlEnc del h0 h1
      unfold trimP1
      split
      · exact Or.inl (trimP2_count ..)
      · dsimp only
        split
        · next hk =>
            left
            have hcur : cur = NL := by
              rcases Bool.and_eq_true .. |>.mp hk with ⟨_, h⟩
              exact (beq_iff_eq ..).mp h
            simp only [List.count_cons, List.count_nil]
            simp [hcur]
            try omega
        · next hk =>
            by_cases hcur : cur = NL
            · -- a deleted newline: nlEnc is true and done ends in a newline
              right
              have hnl : nlEnc = true := by
                cases hb : nlEnc
                · exact absurd (by simp [hb, hcur]) hk
                · rfl
              exact h1 hnl
            · left
              simp only [List.count_cons, List.count_nil]
              simp [hcur]
  | cons a rest ih =>
      intro cur done nlEnc del h0 h1
      unfold trimP1
      split
      · exact Or.inl (trimP2_count ..)
      · dsimp only
        split
        · next hk =>
            have hcur : cur = NL := by
              rcases Bool.and_eq_true .. |>.mp hk with ⟨_, h⟩
              exact (beq_iff_eq ..).mp h
            have hnl0 : nlEnc = false := by
              rcases Bool.and_eq_true .. |>.mp hk with ⟨h, _⟩
              cases hb : nlEnc
              · rfl
              · rw [hb] at h
                exact Bool.noConfusion h
            have hdone : done = [] := h0 hnl0
            subst hdone
            rw [hk]
            simp only [Bool.or_true, Bool.not_true, Bool.or_false]
            rcases ih a (cur :: []) true del
                (fun h => Bool.noConfusion h)
                (by intro _; simp [hcur]) with hL | hR
            · left
              rw [hL]
              simp only [List.count_cons, List.count_nil]
              simp [hcur]
              try omega
            · exact Or.inr hR
        · next hk =>
            have hkf : (!nlEnc && (cur == NL)) = false := by
              revert hk
              cases (!nlEnc && (cur == NL)) <;> simp
            rw [hkf]
            simp only [Bool.or_false, Bool.not_false, Bool.or_true]
            by_cases hcur : cur = NL
            · right
              have hnl : nlEnc = true := by
                cases hb : nlEnc
                · rw [hb] at hkf
                  simp [hcur] at hkf
                · rfl
              have hlast := h1 hnl
              obtain ⟨t, ht⟩ := trimP1_suffix rest a done nlEnc true
              rw [← ht]
              exact getLast?_append_right hlast
            · rcases ih a done nlEnc true h0 h1 with hL | hR
              · left
                rw [hL]
                simp only [List.count_cons, List.count_nil]
                simp [hcur]
              · exact Or.inr hR

theorem forwardToRow_spec (rB : Nat) (right : List Nat) :
    ∀ r : Nat,
      (forwardToRow rB right r).2.2 =
          r + (forwardToRow rB right r).1.count NL ∧
      (forwardToRow rB right r).1 ++ (forwardToRow rB right r).2.1 =
          right := by
  induction right with
  | nil =>
      intro r
      unfold forwardToRow
      split <;> simp
  | cons a rest ih =>
      intro r
      unfold forwardToRow
      split
      · simp
      · dsimp only
        obtain ⟨ih1, ih2⟩ := ih (if a = NL then r + 1 else r)
        constructor
        · rw [ih1]
          simp only [List.count_cons]
          by_cases ha : a = NL <;> simp [ha] <;> omega
        · rw [List.cons_append, ih2]

theorem forwardToRow_le (rB : Nat) (right : List Nat) :
    ∀ r : Nat, r ≤ rB → (forwardToRow rB right r).2.2 ≤ rB := by
  induction right with
  | nil =>
      intro r hr
      unfold forwardToRow
      split <;> simpa
  | cons a rest ih =>
      intro r hr
      unfold forwardToRow
      split
      · simpa
      · next hne =>
          dsimp only
          exact ih _ (by by_cases ha : a = NL <;> simp [ha] <;> omega)

theorem forwardToRow_nil_of {rB : Nat} {right : List Nat} {r : Nat}
    (hne : r ≠ rB) (h : (forwardToRow rB right r).1 = []) :
    right = [] ∧ forwardToRow rB right r = ([], [], r) := by
  cases right with
  | nil =>
      refine ⟨rfl, ?_⟩
      unfold forwardToRow
      rw [if_neg hne]
  | cons a rest =>
      exfalso
      unfold forwardToRow at h
      rw [if_neg hne] at h
      exact List.noConfusion h

theorem forwardToRow_cases (rB : Nat) (right : List Nat) :
    ∀ r : Nat,
      (forwardToRow rB right r).1 = [] ∨
      (forwardToRow rB right r).1.getLast? = some NL ∨
      ((forwardToRow rB right r).2.1 = [] ∧
        (forwardToRow rB right r).2.2 ≠ rB) := by
  induction right with
  | nil =>
      intro r
      unfold forwardToRow
      by_cases hr : r = rB
      · rw [if_pos hr]
        exact Or.inl rfl
      · rw [if_neg hr]
        exact Or.inr (Or.inr ⟨rfl, hr⟩)
  | cons a rest ih =>
      intro r
      by_cases hr : r = rB
      · left
        unfold forwardToRow
        rw [if_pos hr]
      · have hstep : forwardToRow rB (a :: rest) r =
            (a :: (forwardToRow rB rest (if a = NL then r + 1 else r)).1,
              (forwardToRow rB rest (if a = NL then r + 1 else r)).2.1,
              (forwardToRow rB rest (if a = NL then r + 1 else r)).2.2) := by
          conv_lhs => unfold forwardToRow
          rw [if_neg hr]
        set r' := if a = NL then r + 1 else r with hr'
        rcases ih r' with h1 | h2 | h3
        · by_cases hrB : r' = rB
          · -- the walk stopped right after this byte, so it was a newline
            have ha : a = NL := by
              by_cases ha : a = NL
              · exact ha
              · rw [hr'] at hrB
                rw [if_neg ha] at hrB
                exact absurd hrB hr
            right; left
            rw [hstep, h1]
            simp [ha]
          · obtain ⟨hnil, hres⟩ := forwardToRow_nil_of hrB h1
            right; right
            rw [hstep, hres]
            exact ⟨rfl, hrB⟩
        · right; left
          rw [hstep]
          have hne : (forwardToRow rB rest r').1 ≠ [] := by
            intro hn
            rw [hn] at h2
            exact Option.noConfusion h2
          rw [List.getLast?_cons, h2]
          rfl
        · right; right
          rw [hstep]
          exact h3

theorem rc_trim_clean {b : Buffer} (hb : rcOk b) : rcOk (trim_clean b) := by
  unfold trim_clean
  dsimp only
  rcases hrev : (end_of_buffer b).left.reverse with _ | ⟨cur, restRev⟩
  · exact rc_end_of_buffer hb
  · dsimp only
    have hspec := forwardToRow_spec b.r (trimP1 restRev cur [] false false).1 1
    refine ⟨?_, ?_⟩
    · dsimp only
      rw [hspec.1]
      omega
    · dsimp only
      rcases forwardToRow_cases b.r (trimP1 restRev cur [] false false).1 1
          with h1 | h2 | h3
      · rw [h1]
        rfl
      · rw [colOf_eq_zero_of_getLast h2]
      · -- the forward walk consumed the whole trimmed text without
        -- reaching the saved row; this forces the trimmed text to end in
        -- a newline, because otherwise no newline was deleted and the
        -- walk would have reached the saved row
        rcases trimP1_count restRev cur [] false false (fun _ => rfl)
            (by intro h; exact Bool.noConfusion h) with hcnt | hlast
        · exfalso
          simp only [List.count_nil] at hcnt
          have htext : (end_of_buffer b).left.count NL =
              restRev.count NL + [cur].count NL := by
            have h' : (end_of_buffer b).left.count NL =
                ((end_of_buffer b).left.reverse).count NL :=
              (List.count_reverse ..).symm
            rw [h', hrev]
            simp only [List.count_cons, List.count_nil]
            omega
          have hrb : b.r ≤ (end_of_buffer b).left.count NL + 1 := by
            obtain ⟨hr, _⟩ := hb
            dsimp only [end_of_buffer]
            rw [List.count_append]
            omega
          have hle := forwardToRow_le b.r
            (trimP1 restRev cur [] false false).1 1 (by
              obtain ⟨hr, _⟩ := hb
              omega)
          have hwalk := hspec.1
          rw [h3.1, List.append_nil] at hspec
          have hca : (forwardToRow b.r
                (trimP1 restRev cur [] false false).1 1).1.count NL =
              (trimP1 restRev cur [] false false).1.count NL := by
            rw [hspec.2]
          exact h3.2 (by omega)
        · rw [h3.1, List.append_nil] at hspec
          rw [hspec.2, colOf_eq_zero_of_getLast hlast]

/-! ### replace preserves the row/column invariant -/

/-- Row bookkeeping of the replace loop: the loop tracks rows only while
walking the cursor (`RCH`); every iteration splices `rep` left of the gap
without touching the row, so after `i` iterations the tracked row lags the
newline count left of the gap by exactly `i * (newlines in rep)`. -/
theorem repLoop_left_count (find rep : List Nat) (bad : Nat → Nat) :
    ∀ (i : Nat) (st st' : RepSt), repLoop find rep bad i st = some st' →
      st'.r + st.left.count NL + i * rep.count NL =
        st.r + st'.left.count NL := by
  intro i
  induction i with
  | zero =>
      intro st st' h
      unfold repLoop at h
      injection h with h
      subst h
      omega
  | succ k ih =>
      intro st st' h
      unfold repLoop at h
      split at h
      · exact Option.noConfusion h
      · have hrec := ih _ _ h
        dsimp only at hrec
        rw [List.count_append, List.count_append] at hrec
        have hmul : (k + 1) * rep.count NL =
            k * rep.count NL + rep.count NL := by ring
        omega

theorem rc_replace {b : Buffer} {rp : List Nat} {b' : Buffer} (hb : rcOk b)
    (hm : markOk b) (h : replace b rp = some b') : rcOk b' := by
  unfold replace at h
  dsimp only at h
  by_cases hset : b.m_set = false
  · rw [if_pos hset] at h
    exact Option.noConfusion h
  rw [if_neg hset] at h
  by_cases heq : b.m = b.left.length
  · rw [if_pos heq] at h
    injection h with hb'
    subst hb'
    exact hb
  rw [if_neg heq] at h
  by_cases hlen : rp.length < 3
  · rw [if_pos hlen] at h
    exact Option.noConfusion h
  rw [if_neg hlen] at h
  rcases rp with _ | ⟨delim, rest⟩
  · exact Option.noConfusion h
  dsimp only at h
  rcases hmc : memchr rest delim with _ | dIdx
  · rw [hmc] at h
    exact Option.noConfusion h
  rw [hmc] at h
  dsimp only at h
  by_cases hd0 : dIdx = 0
  · rw [if_pos hd0] at h
    exact Option.noConfusion h
  rw [if_neg hd0] at h
  have hmset : b.m_set = true := by
    revert hset
    cases b.m_set <;> simp
  by_cases hlt : b.m < b.left.length
  · simp only [if_pos hlt] at h
    split at h
    · exact Option.noConfusion h
    · next st hst =>
        injection h with hb'
        subst hb'
        have hcnt := repLoop_left_count _ _ _ _ _ _ hst
        dsimp only at hcnt
        obtain ⟨hmle, hmr⟩ := hm hmset
        rw [take_text_of_le (Nat.le_of_lt hlt)] at hmr
        refine ⟨?_, rfl⟩
        dsimp only
        omega
  · simp only [if_neg hlt] at h
    split at h
    · exact Option.noConfusion h
    · next st hst =>
        injection h with hb'
        subst hb'
        have hcnt := repLoop_left_count _ _ _ _ _ _ hst
        dsimp only at hcnt
        obtain ⟨hr, _⟩ := hb
        refine ⟨?_, rfl⟩
        dsimp only
        omega

/-! ### Claim theorems: replace row update (C1) and the invariant (C2) -/

/-- Claim C1 as stated is false.  Buffer with the cursor at 0 and the
mark at 3 over the text `X\nY`, request `/X\n/` (find `X\n`, replace
empty): the replace succeeds with `count = 1`, one newline in the find
text and none in the replace text, yet the row stays 1 — the claimed
update by `count * (newlines in replace - newlines in find) = -1` does
not happen (row 0 would also violate the row invariant). -/
theorem C1_counterexample :
    replace ⟨none, [], [88, 10, 89], 1, 0, 3, 2, true, false⟩
        [47, 88, 10, 47] =
      some ⟨none, [], [89], 1, 0, 3, 2, false, true⟩ ∧
    countSlide ([88, 10, 89] ++ [EOBCH]) 3 [88, 10] (badTable [88, 10]) = 1 ∧
    ([88, 10] : List Nat).count NL = 1 ∧
    (([] : List Nat)).count NL = 0 ∧
    ((1 : Int) - 1 ≠ 1 * ((0 : Int) - 1)) := by
  exact ⟨by decide, by decide, by decide, by decide, by decide⟩

/-- Claim C1, amended: a successful `replace` adds
`count * (newlines in the replace text)` on top of the row tracking done
while the cursor walks the region; the newlines of the deleted find text
are never subtracted because the deleted bytes never cross to the left of
the gap.  Together these keep the row equal to the newline count left of
the gap plus one, and the column is recomputed. -/
theorem C1_replace_row (b : Buffer) (rp : List Nat) (b' : Buffer)
    (hb : rcOk b) (hm : markOk b) (h : replace b rp = some b') :
    b'.r = b'.left.count NL + 1 ∧ b'.col = colOf b'.left :=
  rc_replace hb hm h

/-- Witness for C1_replace_row: replacing `b` by `x` in the region
`[1, 3)` of `a\nb|c\nd`. -/
theorem C1_replace_row_witness :
    ∃ b', replace ⟨none, [97, 10, 98], [99, 10, 100], 2, 1, 1, 1, true,
        false⟩ [47, 98, 47, 120] = some b' ∧
      (b'.r = b'.left.count NL + 1 ∧ b'.col = colOf b'.left) := by
  have h : replace ⟨none, [97, 10, 98], [99, 10, 100], 2, 1, 1, 1, true,
      false⟩ [47, 98, 47, 120] =
      some ⟨none, [97, 10, 120], [99, 10, 100], 2, 1, 3, 2, false, true⟩ := by
    decide
  exact ⟨_, h, C1_replace_row _ _ _ (by decide) (by decide) h⟩

/-- Claim C2: every buffer primitive, when it succeeds, re-establishes
the row/column invariant `row = count newlines left of the gap + 1` and
`col = distance back to the nearest newline or the start`.  Multiplied
operations carry the spec's blanket precondition `n ≥ 1` where the zero
multiplier matters (`insert_char` of a newline zero times would zero the
column, see C8); `copy_region` and `replace` need the mark row
bookkeeping to be consistent, and `paste` needs a register produced by
`copy_region` (rows = newline count of the content). -/
theorem C2_invariants :
    (∀ (b : Buffer) (n : Nat) (b' : Buffer), rcOk b →
      move_left b n = some b' → rcOk b') ∧
    (∀ (b : Buffer) (n : Nat) (b' : Buffer), rcOk b →
      move_right b n = some b' → rcOk b') ∧
    (∀ (b : Buffer) (n : Nat) (b' : Buffer), rcOk b →
      up_line b n = some b' → rcOk b') ∧
    (∀ (b : Buffer) (n : Nat) (b' : Buffer), rcOk b →
      down_line b n = some b' → rcOk b') ∧
    (∀ b : Buffer, rcOk b → rcOk (start_of_line b)) ∧
    (∀ b : Buffer, rcOk b → rcOk (end_of_line b)) ∧
    (∀ b : Buffer, rcOk (start_of_buffer b)) ∧
    (∀ b : Buffer, rcOk b → rcOk (end_of_buffer b)) ∧
    (∀ (b : Buffer) (ch n : Nat) (b' : Buffer), rcOk b → 1 ≤ n →
      insert_char b ch n = some b' → rcOk b') ∧
    (∀ (b : Buffer) (n : Nat) (b' : Buffer), rcOk b →
      delete_char b n = some b' → rcOk b') ∧
    (∀ (b : Buffer) (n : Nat) (b' : Buffer), rcOk b →
      backspace_char b n = some b' → rcOk b') ∧
    (∀ (b : Buffer) (p : Mem) (n : Nat) (b' : Buffer), rcOk b → memOk p →
      paste b p n = some b' → rcOk b') ∧
    (∀ (b : Buffer) (p : Mem) (del : Bool) (b' : Buffer) (p' : Mem),
      rcOk b → markOk b → copy_region b p del = some (b', p') → rcOk b') ∧
    (∀ b : Buffer, rcOk b → rcOk (trim_clean b)) ∧
    (∀ (b : Buffer) (rp : List Nat) (b' : Buffer), rcOk b → markOk b →
      replace b rp = some b' → rcOk b') :=
  ⟨fun _ _ _ hb h => rc_move_left hb h,
    fun _ _ _ hb h => rc_move_right hb h,
    fun _ _ _ hb h => rc_up_line hb h,
    fun _ _ _ hb h => rc_down_line hb h,
    fun _ hb => rc_start_of_line hb,
    fun _ hb => rc_end_of_line hb,
    fun b => rc_start_of_buffer b,
    fun _ hb => rc_end_of_buffer hb,
    fun _ _ _ _ hb hn h => rc_insert_char hb hn h,
    fun _ _ _ hb h => rc_delete_char hb h,
    fun _ _ _ hb h => rc_backspace_char hb h,
    fun _ _ _ _ hb hp h => rc_paste hb hp h,
    fun _ _ _ _ _ hb hm h => rc_copy_region hb hm h,
    fun _ hb => rc_trim_clean hb,
    fun _ _ _ hb hm h => rc_replace hb hm h⟩

/-- Concrete buffer `a\nb|c\nd` (cursor after `b`, mark at 1, row 2,
column 1) used to witness C2. -/
def Wb : Buffer := ⟨none, [97, 10, 98], [99, 10, 100], 2, 1, 1, 1, true, false⟩

/-- Concrete paste register `x\n` used to witness C2. -/
def Wp : Mem := ⟨[120, 10], 1⟩

/-- Witness for C2_invariants: every primitive applied to the concrete
buffer `Wb` (and register `Wp`) succeeds and re-establishes the
invariant. -/
theorem C2_invariants_witness :
    (∃ b', move_left Wb 1 = some b' ∧ rcOk b') ∧
    (∃ b', move_right Wb 1 = some b' ∧ rcOk b') ∧
    (∃ b', up_line Wb 1 = some b' ∧ rcOk b') ∧
    (∃ b', down_line Wb 1 = some b' ∧ rcOk b') ∧
    rcOk (start_of_line Wb) ∧
    rcOk (end_of_line Wb) ∧
    rcOk (start_of_buffer Wb) ∧
    rcOk (end_of_buffer Wb) ∧
    (∃ b', insert_char Wb 120 1 = some b' ∧ rcOk b') ∧
    (∃ b', delete_char Wb 1 = some b' ∧ rcOk b') ∧
    (∃ b', backspace_char Wb 1 = some b' ∧ rcOk b') ∧
    (∃ b', paste Wb Wp 1 = some b' ∧ rcOk b') ∧
    (∃ b' p', copy_region Wb Wp false = some (b', p') ∧ rcOk b') ∧
    rcOk (trim_clean Wb) ∧
    (∃ b', replace Wb [47, 98, 47, 120] = some b' ∧ rcOk b') := by
  obtain ⟨h1, h2, h3, h4, h5, h6, h7, h8, h9, h10, h11, h12, h13, h14, h15⟩ :=
    C2_invariants
  refine ⟨?_, ?_, ?_, ?_, h5 Wb (by decide), h6 Wb (by decide), h7 Wb,
    h8 Wb (by decide), ?_, ?_, ?_, ?_, ?_, h14 Wb (by decide), ?_⟩
  · have h : move_left Wb 1 =
        some ⟨none, [97, 10], [98, 99, 10, 100], 2, 0, 1, 1, true, false⟩ := by
      decide
    exact ⟨_, h, h1 _ 1 _ (by decide) h⟩
  · have h : move_right Wb 1 =
        some ⟨none, [97, 10, 98, 99], [10, 100], 2, 2, 1, 1, true, false⟩ := by
      decide
    exact ⟨_, h, h2 _ 1 _ (by decide) h⟩
  · have h : up_line Wb 1 =
        some ⟨none, [97], [10, 98, 99, 10, 100], 1, 1, 1, 1, true, false⟩ := by
      decide
    exact ⟨_, h, h3 _ 1 _ (by decide) h⟩
  · have h : down_line Wb 1 =
        some ⟨none, [97, 10, 98, 99, 10, 100], [], 3, 1, 1, 1, true,
          false⟩ := by decide
    exact ⟨_, h, h4 _ 1 _ (by decide) h⟩
  · have h : insert_char Wb 120 1 =
        some ⟨none, [97, 10, 98, 120], [99, 10, 100], 2, 2, 1, 1, false,
          true⟩ := by decide
    exact ⟨_, h, h9 _ 120 1 _ (by decide) (by decide) h⟩
  · have h : delete_char Wb 1 =
        some ⟨none, [97, 10, 98], [10, 100], 2, 1, 1, 1, false, true⟩ := by
      decide
    exact ⟨_, h, h10 _ 1 _ (by decide) h⟩
  · have h : backspace_char Wb 1 =
        some ⟨none, [97, 10], [99, 10, 100], 2, 0, 1, 1, false, true⟩ := by
      decide
    exact ⟨_, h, h11 _ 1 _ (by decide) h⟩
  · have h : paste Wb Wp 1 =
        some ⟨none, [97, 10, 98, 120, 10], [99, 10, 100], 3, 0, 1, 1, false,
          true⟩ := by decide
    exact ⟨_, h, h12 _ _ 1 _ (by decide) (by decide) h⟩
  · have h : copy_region Wb Wp false =
        some (⟨none, [97, 10, 98], [99, 10, 100], 2, 1, 1, 1, false, false⟩,
          ⟨[10, 98], 1⟩) := by decide
    exact ⟨_, _, h, h13 _ _ false _ _ (by decide) (by decide) h⟩
  · have h : replace Wb [47, 98, 47, 120] =
        some ⟨none, [97, 10, 120], [99, 10, 100], 2, 1, 3, 2, false,
          true⟩ := by decide
    exact ⟨_, h, h15 _ _ _ (by decide) (by decide) h⟩

/-! ### Quick-Search correctness (toward C3)

`firstOccScan`/`firstOcc` restate the claim's words — "the start of the
first occurrence" — as a naive left-to-right scan; the development below
proves that `memmatch` with a `set_bad` table computes exactly this. -/

/-- Naive scan for the first occurrence at or after position `q`. -/
def firstOccScan (big pat : List Nat) : Nat → Nat → Option Nat
  | 0, _ => none
  | fuel + 1, q =>
    if matchAt big pat q then some q else firstOccScan big pat fuel (q + 1)

/-- Position of the first occurrence of `pat` in `big` (the reference
definition for claim C3). -/
def firstOcc (big pat : List Nat) : Option Nat :=
  firstOccScan big pat (big.length + 1) 0

theorem matchAt_le {big pat : List Nat} {i : Nat} (h : matchAt big pat i) :
    i + pat.length ≤ big.length := h.1

theorem firstOccScan_some {big pat : List Nat} :
    ∀ (fuel q i : Nat), firstOccScan big pat fuel q = some i →
      matchAt big pat i ∧ q ≤ i ∧
        ∀ j, q ≤ j → j < i → ¬matchAt big pat j := by
  intro fuel
  induction fuel with
  | zero =>
      intro q i h
      exact Option.noConfusion h
  | succ k ih =>
      intro q i h
      unfold firstOccScan at h
      split at h
      · next hm =>
          injection h with h
          subst h
          exact ⟨hm, Nat.le_refl _, fun j h1 h2 => absurd h1 (by omega)⟩
      · next hm =>
          obtain ⟨h1, h2, h3⟩ := ih (q + 1) i h
          refine ⟨h1, by omega, fun j hj1 hj2 => ?_⟩
          by_cases hjq : j = q
          · exact hjq ▸ hm
          · exact h3 j (by omega) hj2

theorem firstOccScan_complete {big pat : List Nat} :
    ∀ (fuel q i : Nat), matchAt big pat i → q ≤ i → i < q + fuel →
      (∀ j, q ≤ j → j < i → ¬matchAt big pat j) →
      firstOccScan big pat fuel q = some i := by
  intro fuel
  induction fuel with
  | zero =>
      intro q i _ h1 h2 _
      omega
  | succ k ih =>
      intro q i hm h1 h2 hmin
      unfold firstOccScan
      by_cases hq : q = i
      · subst hq
        rw [if_pos hm]
      · rw [if_neg (hmin q (Nat.le_refl _) (by omega))]
        exact ih (q + 1) i hm (by omega) (by omega)
          (fun j hj1 hj2 => hmin j (by omega) hj2)

theorem firstOccScan_none {big pat : List Nat} :
    ∀ (fuel q : Nat), (∀ j, q ≤ j → ¬matchAt big pat j) →
      firstOccScan big pat fuel q = none := by
  intro fuel
  induction fuel with
  | zero => intro q _; rfl
  | succ k ih =>
      intro q h
      unfold firstOccScan
      rw [if_neg (h q (Nat.le_refl _))]
      exact ih (q + 1) (fun j hj => h j (by omega))

theorem firstOcc_eq_some {big pat : List Nat} {i : Nat}
    (hm : matchAt big pat i) (hmin : ∀ j, j < i → ¬matchAt big pat j) :
    firstOcc big pat = some i := by
  have hb := matchAt_le hm
  exact firstOccScan_complete _ 0 i hm (Nat.zero_le _) (by omega)
    (fun j _ hj => hmin j hj)

theorem firstOcc_eq_none {big pat : List Nat}
    (h : ∀ i, ¬matchAt big pat i) : firstOcc big pat = none :=
  firstOccScan_none _ 0 (fun j _ => h j)

theorem firstOcc_some_elim {big pat : List Nat} {i : Nat}
    (h : firstOcc big pat = some i) :
    matchAt big pat i ∧ ∀ j, j < i → ¬matchAt big pat j := by
  obtain ⟨h1, _, h3⟩ := firstOccScan_some _ 0 i h
  exact ⟨h1, fun j hj => h3 j (Nat.zero_le _) hj⟩

/-! Bad-character-table bounds. -/

theorem badFill_le_max (len ch : Nat) :
    ∀ (l : List Nat) (i acc : Nat),
      badFill len ch l i acc ≤ max acc (len - i) := by
  intro l
  induction l with
  | nil =>
      intro i acc
      unfold badFill
      omega
  | cons a rest ih =>
      intro i acc
      unfold badFill
      by_cases hc : a = ch
      · rw [if_pos hc]
        have h := ih (i + 1) (len - i)
        omega
      · rw [if_neg hc]
        have h := ih (i + 1) acc
        omega

theorem badFill_pos (len ch : Nat) :
    ∀ (l : List Nat) (i acc : Nat), 1 ≤ acc → i + l.length ≤ len →
      1 ≤ badFill len ch l i acc := by
  intro l
  induction l with
  | nil =>
      intro i acc h _
      exact h
  | cons a rest ih =>
      intro i acc h hlen
      unfold badFill
      simp only [List.length_cons] at hlen
      by_cases hc : a = ch
      · rw [if_pos hc]
        exact ih (i + 1) _ (by omega) (by omega)
      · rw [if_neg hc]
        exact ih (i + 1) _ h (by omega)

theorem badFill_le_of_getD (len ch : Nat) :
    ∀ (l : List Nat) (j i acc : Nat), j < l.length → l.getD j 0 = ch →
      badFill len ch l i acc ≤ len - (i + j) := by
  intro l
  induction l with
  | nil =>
      intro j i acc hj _
      simp at hj
  | cons a rest ih =>
      intro j i acc hj hg
      rcases j with _ | j'
      · simp only [List.getD_cons_zero] at hg
        unfold badFill
        rw [if_pos hg]
        have h := badFill_le_max len ch rest (i + 1) (len - i)
        omega
      · simp only [List.getD_cons_succ] at hg
        simp only [List.length_cons] at hj
        unfold badFill
        by_cases hc : a = ch
        · rw [if_pos hc]
          have h := ih j' (i + 1) (len - i) (by omega) hg
          omega
        · rw [if_neg hc]
          have h := ih j' (i + 1) acc (by omega) hg
          omega

theorem badTable_pos (pat : List Nat) (ch : Nat) : 1 ≤ badTable pat ch :=
  badFill_pos _ _ _ _ _ (by omega) (by omega)

theorem badTable_le_succ (pat : List Nat) (ch : Nat) :
    badTable pat ch ≤ pat.length + 1 := by
  have h := badFill_le_max pat.length ch pat 0 (pat.length + 1)
  unfold badTable
  omega

theorem badTable_le_of_getD {pat : List Nat} {j : Nat} (hj : j < pat.length) :
    badTable pat (pat.getD j 0) ≤ pat.length - j := by
  have h := badFill_le_of_getD pat.length (pat.getD j 0) pat j 0
    (pat.length + 1) hj rfl
  unfold badTable
  omega

theorem getD_take_lt {l : List Nat} {n j : Nat} (hj : j < n) :
    (l.take n).getD j 0 = l.getD j 0 := by
  simp [List.getD_eq_getElem?_getD, List.getElem?_take_of_lt hj]

theorem getD_drop_add (l : List Nat) (n j : Nat) :
    (l.drop n).getD j 0 = l.getD (n + j) 0 := by
  simp [List.getD_eq_getElem?_getD, List.getElem?_drop]

/-- The Quick-Search shift never skips an occurrence: if `pat` occurs at
`p > q`, then jumping from `q` by the bad-table entry of the byte just
past the window stays at or before `p`. -/
theorem badTable_skip {big pat : List Nat} {p q : Nat}
    (hp : matchAt big pat p) (hq : q < p)
    (hqb : q + pat.length ≤ big.length) :
    q + badTable pat (big.getD (q + pat.length) 0) ≤ p := by
  by_cases hple : p ≤ q + pat.length
  · -- the byte past the window lies inside the occurrence at p
    have hpb : p + pat.length ≤ big.length := matchAt_le hp
    have hjlt : q + pat.length - p < pat.length := by omega
    have hgb : pat.getD (q + pat.length - p) 0 =
        big.getD (q + pat.length) 0 := by
      obtain ⟨_, heq⟩ := hp
      have h1 : ((big.drop p).take pat.length).getD (q + pat.length - p) 0 =
          big.getD (q + pat.length) 0 := by
        rw [getD_take_lt hjlt, getD_drop_add]
        congr 1
        omega
      rw [← h1, heq]
    have hle := badTable_le_of_getD hjlt
    rw [hgb] at hle
    omega
  · have hle := badTable_le_succ pat (big.getD (q + pat.length) 0)
    omega

/-- The Quick-Search loop with a `set_bad` table computes the first
occurrence. -/
theorem qsLoop_eq_firstOcc (big pat : List Nat) (hlen : 1 ≤ pat.length) :
    ∀ (fuel q : Nat), big.length + 2 - q ≤ fuel →
      (∀ j, j < q → ¬matchAt big pat j) →
      qsLoop big pat (badTable pat) fuel q = firstOcc big pat := by
  intro fuel
  induction fuel with
  | zero =>
      intro q hfuel hinv
      have hnone : ∀ i, ¬matchAt big pat i := by
        intro i hm
        by_cases hiq : i < q
        · exact hinv i hiq hm
        · have := matchAt_le hm
          omega
      rw [firstOcc_eq_none hnone]
      rfl
  | succ k ih =>
      intro q hfuel hinv
      unfold qsLoop
      by_cases hqb : q + pat.length ≤ big.length
      · rw [if_pos hqb]
        by_cases hm : (big.drop q).take pat.length = pat
        · rw [if_pos hm]
          exact (firstOcc_eq_some ⟨hqb, hm⟩ (fun j hj => hinv j hj)).symm
        · rw [if_neg hm]
          have hpos := badTable_pos pat (big.getD (q + pat.length) 0)
          refine ih (q + badTable pat (big.getD (q + pat.length) 0))
            (by omega) ?_
          intro j hj hmj
          by_cases hjq : j < q
          · exact hinv j hjq hmj
          · by_cases hjeq : j = q
            · exact hm (hjeq ▸ hmj).2
            · have := badTable_skip hmj (by omega) hqb
              omega
      · rw [if_neg hqb]
        have hnone : ∀ i, ¬matchAt big pat i := by
          intro i hm
          by_cases hiq : i < q
          · exact hinv i hiq hm
          · have := matchAt_le hm
            omega
        rw [firstOcc_eq_none hnone]

theorem matchAt_cons {a : Nat} {big pat : List Nat} {i : Nat} :
    matchAt (a :: big) pat (i + 1) ↔ matchAt big pat i := by
  unfold matchAt
  rw [List.drop_succ_cons, List.length_cons]
  constructor
  · rintro ⟨h1, h2⟩
    exact ⟨by omega, h2⟩
  · rintro ⟨h1, h2⟩
    exact ⟨by omega, h2⟩

theorem firstOccScan_cons_shift {a : Nat} {big pat : List Nat} :
    ∀ (fuel q : Nat),
      firstOccScan (a :: big) pat fuel (q + 1) =
        (firstOccScan big pat fuel q).map (· + 1) := by
  intro fuel
  induction fuel with
  | zero => intro q; rfl
  | succ k ih =>
      intro q
      unfold firstOccScan
      by_cases hm : matchAt big pat q
      · rw [if_pos (matchAt_cons.mpr hm), if_pos hm]
        rfl
      · rw [if_neg (fun hc => hm (matchAt_cons.mp hc)), if_neg hm, ih]

theorem matchAt_single_zero {a c : Nat} {rest : List Nat} :
    matchAt (a :: rest) [c] 0 ↔ a = c := by
  unfold matchAt
  simp

/-- `memchr` finds the first occurrence of a one-byte pattern. -/
theorem memchr_eq_firstOcc (c : Nat) :
    ∀ l : List Nat, memchr l c = firstOcc l [c] := by
  intro l
  induction l with
  | nil => rfl
  | cons a rest ih =>
      unfold memchr
      by_cases hc : a = c
      · rw [if_pos hc]
        symm
        apply firstOcc_eq_some
        · exact matchAt_single_zero.mpr hc
        · intro j hj
          exact absurd hj (Nat.not_lt_zero j)
      · rw [if_neg hc, ih]
        show _ = firstOccScan (a :: rest) [c] (rest.length + 1 + 1) 0
        conv_rhs => unfold firstOccScan
        rw [if_neg (fun hm => hc (matchAt_single_zero.mp hm))]
        rw [firstOccScan_cons_shift]
        rfl

/-- `memmatch` with a `set_bad` table for its pattern returns the first
occurrence of the pattern, for every non-empty pattern. -/
theorem memmatch_eq_firstOcc (big pat : List Nat) (hlen : 1 ≤ pat.length) :
    memmatch big pat (badTable pat) = firstOcc big pat := by
  unfold memmatch
  by_cases h0 : big.length = 0 ∨ pat.length = 0 ∨ pat.length > big.length
  · rw [if_pos h0]
    symm
    apply firstOcc_eq_none
    intro i hm
    have := matchAt_le hm
    rcases h0 with h | h | h <;> omega
  · rw [if_neg h0]
    by_cases h1 : pat.length = 1
    · rw [if_pos h1]
      rcases pat with _ | ⟨c, rest⟩
      · simp at h1
      · rcases rest with _ | ⟨d, rest2⟩
        · exact memchr_eq_firstOcc c big
        · simp at h1
    · rw [if_neg h1]
      exact qsLoop_eq_firstOcc big pat hlen _ 0 (by omega)
        (fun j hj => absurd hj (Nat.not_lt_zero j))

/-! ### Claim theorem: search (C3) -/

/-- Claim C3: for a non-empty pattern, `search` is determined by the
bytes strictly between the cursor and the sentinel (`b.right.tail` in the
model): it fails without moving when the pattern is longer than that
text, or does not occur in it; and when the pattern occurs, it succeeds
and moves the cursor right to the start of the first occurrence (the
match at tail index `i` starts `i + 1` bytes after the cursor). -/
theorem C3_search (b : Buffer) (pat : List Nat) (rows : Nat)
    (hne : pat ≠ []) :
    (pat.length > b.right.length - 1 →
      search b ⟨pat, rows⟩ (badTable pat) = none) ∧
    ((∀ i, ¬matchAt b.right.tail pat i) →
      search b ⟨pat, rows⟩ (badTable pat) = none) ∧
    (∀ i, matchAt b.right.tail pat i →
      (∀ j, j < i → ¬matchAt b.right.tail pat j) →
      search b ⟨pat, rows⟩ (badTable pat) =
        some { b with
          left := b.left ++ b.right.take (i + 1)
          right := b.right.drop (i + 1)
          r := b.r + (b.right.take (i + 1)).count NL
          col := colOf (b.left ++ b.right.take (i + 1)) }) := by
  have hlen : 1 ≤ pat.length := by
    rcases pat with _ | _
    · exact absurd rfl hne
    · simp
  have htail : b.right.tail.length = b.right.length - 1 :=
    List.length_tail b.right
  refine ⟨?_, ?_, ?_⟩
  · intro hlong
    unfold search
    by_cases hr1 : b.right.length ≤ 1
    · rw [if_pos hr1]
    · rw [if_neg hr1]
      have hm : memmatch b.right.tail pat (badTable pat) = none := by
        unfold memmatch
        rw [if_pos (Or.inr (Or.inr (by omega)))]
      rw [hm]
  · intro hnone
    unfold search
    by_cases hr1 : b.right.length ≤ 1
    · rw [if_pos hr1]
    · rw [if_neg hr1]
      rw [memmatch_eq_firstOcc _ _ hlen, firstOcc_eq_none hnone]
  · intro i hm hmin
    have hi : i + pat.length ≤ b.right.length - 1 := htail ▸ matchAt_le hm
    unfold search
    rw [if_neg (by omega)]
    rw [memmatch_eq_firstOcc _ _ hlen, firstOcc_eq_some hm hmin]
    dsimp only
    unfold move_right
    rw [if_neg (by omega)]

/-- Witness for C3_search on the buffer `aXbXcXdXe` with the cursor at 0
and the pattern `X`: the search stops at byte offset 1 (spec scenario
3). -/
theorem C3_search_witness :
    search ⟨none, [], [97, 88, 98, 88, 99, 88, 100, 88, 101], 1, 0, 0, 1,
        false, false⟩ ⟨[88], 0⟩ (badTable [88]) =
      some ⟨none, [97], [88, 98, 88, 99, 88, 100, 88, 101], 1, 1, 0, 1,
        false, false⟩ := by
  have h := (C3_search ⟨none, [], [97, 88, 98, 88, 99, 88, 100, 88, 101],
      1, 0, 0, 1, false, false⟩ [88] 0 (by decide)).2.2 0 (by decide)
    (fun j hj => absurd hj (Nat.not_lt_zero j))
  rw [h]
  decide

end Spot
